import Mathlib

/-!
Shallow embedding of `src/src/lib.rs` (crate `ezemuera-trans`).

Rust strings are modelled as `List Char`; all positions are UTF-8 byte
offsets, exactly as in the source (`char_indices`, `find_str` and slicing
all work on byte indices there).  Operations that can panic in Rust
(out-of-bounds or non-boundary slicing, `unwrap`, `assert!`) return
`Option`; loops without a termination guarantee additionally take fuel.
Convention for such fuelled computations:
  `none`            — the fuel ran out (the loop has not terminated yet),
  `some none`       — the Rust code panics,
  `some (some x)`   — normal return of `x`.
The external collaborators (the EzTrans engine and the encoding_rs
encoder/decoder pair) are parameters, as in the spec's component model.
-/

namespace Ez

/-- UTF-8 byte length of a character list, as Rust's `str::len` counts it. -/
def byteLen (l : List Char) : Nat := (l.map Char.utf8Size).sum

/-- Split a character list at byte offset `n`: `some (pre, post)` when `n`
is a char boundary (Rust slicing succeeds), `none` otherwise (Rust panics). -/
def byteSplit : Nat → List Char → Option (List Char × List Char)
  | 0, l => some ([], l)
  | _ + 1, [] => none
  | n + 1, c :: cs =>
    if c.utf8Size ≤ n + 1 then
      (byteSplit (n + 1 - c.utf8Size) cs).map fun p => (c :: p.1, p.2)
    else none
termination_by structural _ l => l

/-- Rust `&text[n..]`. -/
def byteDrop (n : Nat) (l : List Char) : Option (List Char) :=
  (byteSplit n l).map (·.2)

/-- Rust `&text[a..b]`: defined when `a ≤ b` and both ends are char boundaries. -/
def byteSlice (a b : Nat) (l : List Char) : Option (List Char) :=
  if a ≤ b then (byteSplit a l).bind fun p => (byteSplit (b - a) p.2).map (·.1)
  else none

/-- Rust `String::replace_range(a..b, v)`. -/
def replaceRange (l : List Char) (a b : Nat) (v : List Char) : Option (List Char) :=
  if a ≤ b then
    (byteSplit a l).bind fun p =>
      (byteSplit (b - a) p.2).map fun q => p.1 ++ v ++ q.2
  else none

/-- Boolean "is a prefix of" on character lists. -/
def strPrefix : List Char → List Char → Bool
  | [], _ => true
  | _ :: _, [] => false
  | a :: as, b :: bs => if a = b then strPrefix as bs else false

/-- `twoway::find_str(hay, needle)`: byte offset of the first occurrence of
`needle` in `hay`.  Byte-wise search on valid UTF-8 can only match at char
boundaries (continuation bytes never start a character), so the char-aligned
search is exact. -/
def findStr : List Char → List Char → Option Nat
  | hay, needle =>
    if strPrefix needle hay then some 0
    else
      match hay with
      | [] => none
      | c :: cs => (findStr cs needle).map (· + c.utf8Size)
termination_by structural hay _ => hay

/-- `EzDictItem { key, value }` (lib.rs 11-14). -/
structure EzDictItem where
  key : List Char
  value : List Char
deriving DecidableEq

/-- `EzDictItem::new` (lib.rs 17-20): `assert!(!key.is_empty())`, so an
empty key panics (`none`). -/
def EzDictItem.new (key value : List Char) : Option EzDictItem :=
  if key = [] then none else some ⟨key, value⟩

/-- The loop body of `EzDictItem::apply` (lib.rs 22-28), fuelled.  Note the
source searches in `&text[prev_pos..]` — so `pos` is relative to that
suffix — but then calls `text.replace_range(pos..pos + key.len(), value)`
and sets `prev_pos = pos + value.len()` with that relative `pos` used as an
absolute index.  The model reproduces this literally. -/
def applyLoop (key value : List Char) : Nat → List Char → Nat → Option (Option (List Char))
  | 0, _, _ => none
  | fuel + 1, text, prevPos =>
    match byteDrop prevPos text with
    | none => some none
    | some suffix =>
      match findStr suffix key with
      | none => some (some text)
      | some pos =>
        match replaceRange text pos (pos + byteLen key) value with
        | none => some none
        | some text2 => applyLoop key value fuel text2 (pos + byteLen value)

/-- `EzDictItem::apply` (lib.rs 22-28). -/
def EzDictItem.apply (it : EzDictItem) (fuel : Nat) (text : List Char) :
    Option (Option (List Char)) :=
  applyLoop it.key it.value fuel text 0

/-- `for item in dict { item.apply(&mut text) }` — sequential application of
a rule list, as done with `before_dict` (lib.rs 266-268) and `after_dict`
(lib.rs 248-250). -/
def applyAll (fuel : Nat) : List EzDictItem → List Char → Option (Option (List Char))
  | [], text => some (some text)
  | it :: rest, text =>
    match it.apply fuel text with
    | none => none
    | some none => some none
    | some (some text2) => applyAll fuel rest text2

/-- Rust `str::cmp`'s `≤`, byte-lexicographic; on char lists the codepoint
order induces the same order (UTF-8 is order preserving). -/
def lexLe : List Char → List Char → Bool
  | [], _ => true
  | _ :: _, [] => false
  | a :: as, b :: bs =>
    if a.toNat < b.toNat then true
    else if b.toNat < a.toNat then false
    else lexLe as bs

/-- Sorted insertion used by `sortByKey`. -/
def insertSorted (it : EzDictItem) : List EzDictItem → List EzDictItem
  | [] => [it]
  | x :: xs => if lexLe it.key x.key then it :: x :: xs else x :: insertSorted it xs

/-- Model of `sort_unstable_by(|l, r| l.key().cmp(r.key()))` (lib.rs 91-92,
100-101): one fixed implementation producing a sorted permutation.  The
source's sort is *unstable*, so no property about the relative order of
equal keys may be read off this model. -/
def sortByKey (l : List EzDictItem) : List EzDictItem := l.foldr insertSorted []

/-- `EzDict` (lib.rs 71-83). -/
structure EzDict where
  sort : Bool
  before_dict : List EzDictItem
  after_dict : List EzDictItem
deriving DecidableEq

/-- `EzDict::sort_before_dict` (lib.rs 86-93). -/
def EzDict.sort_before_dict (d : EzDict) : EzDict :=
  if d.sort then { d with before_dict := sortByKey d.before_dict } else d

/-- `EzDict::sort_after_dict` (lib.rs 95-102). -/
def EzDict.sort_after_dict (d : EzDict) : EzDict :=
  if d.sort then { d with after_dict := sortByKey d.after_dict } else d

/-- `EzDict::sort` (lib.rs 104-107): after dict, then before dict. -/
def EzDict.sortAll (d : EzDict) : EzDict := d.sort_after_dict.sort_before_dict

/-- The translation cache `FxHashMap<String, String>`, modelled as an
association list; all hash-map observations go through `lookupA`. -/
abbrev Cache := List (List Char × List Char)

/-- Hash-map lookup. -/
def lookupA : Cache → List Char → Option (List Char)
  | [], _ => none
  | (k, v) :: rest, key => if k = key then some v else lookupA rest key

/-- `entry(k).or_insert_with(..)` on an *absent* key: add the binding. -/
def insertNew (c : Cache) (k v : List Char) : Cache := c ++ [(k, v)]

/-- `HashMap::insert`: replace the binding if the key is present, else add it. -/
def insertOv : Cache → List Char → List Char → Cache
  | [], k, v => [(k, v)]
  | (k0, v0) :: rest, k, v =>
    if k0 = k then (k, v) :: rest else (k0, v0) :: insertOv rest k v

/-- `EzContext` (lib.rs 152-158); the scratch buffers are cleared after
every use in the source and carry no state across calls, so they are not
part of the model state. -/
structure EzContext where
  cache : Cache
  dict : EzDict
deriving DecidableEq

/-- `EzContext::translate_impl` (lib.rs 208-254).
`enc` is the SHIFT_JIS encoder in `..._without_replacement` mode: `none`
when some character is unmappable, in which case the source's
`assert_eq!(encoder_ret, EncoderResult::InputEmpty)` panics.  `eng` is the
external engine on the encoded bytes (the trailing NUL pushed in the source
is C-string framing).  `dec` is the EUC-KR decoder in
`..._without_replacement` mode, returning the decoded prefix and a flag for
a malformed input; the source binds the decoder result to `_decoder_ret`
and ignores it, which the model mirrors by using only the first component.
The returned trace lists the keys for which the engine was invoked. -/
def translate_impl (enc : List Char → Option (List Nat)) (eng : List Nat → List Nat)
    (dec : List Nat → List Char × Bool) (fuel : Nat) (after_dict : List EzDictItem)
    (cache : Cache) (text : List Char) :
    Option (Option (List Char × Cache × List (List Char))) :=
  match lookupA cache text with
  | some v => some (some (v, cache, []))
  | none =>
    match enc text with
    | none => some none
    | some bytes =>
      let translated := eng bytes
      let decoded := (dec translated).1
      match applyAll fuel after_dict decoded with
      | none => none
      | some none => some none
      | some (some ret) => some (some (ret, insertNew cache text ret, [text]))

/-- `is_japanese` (lib.rs 428-431). -/
def is_japanese (ch : Char) : Bool :=
  let c := ch.toNat
  (0x3000 ≤ c && c ≤ 0x30FF) || (0x4E00 ≤ c && c ≤ 0x9FAF)

/-- `str::char_indices` from a given byte offset. -/
def charIndicesFrom : Nat → List Char → List (Nat × Char)
  | _, [] => []
  | i, c :: cs => (i, c) :: charIndicesFrom (i + c.utf8Size) cs

/-- `str::char_indices`: characters with their UTF-8 byte offsets. -/
def charIndices (l : List Char) : List (Nat × Char) := charIndicesFrom 0 l

/-- Mutable state of the segmentation loop in `EzContext::translate`
(lib.rs 270-290): `prev_pos`, `is_in_japanese`, the accumulator `ret`, the
shared cache, and the accumulated engine-invocation trace. -/
structure SegSt where
  prevPos : Nat
  is_in_japanese : Bool
  ret : List Char
  cache : Cache
  trace : List (List Char)
deriving DecidableEq

/-- Type of the per-run translator threaded through the segmentation loop
(`translate_impl` partially applied). -/
abbrev RunImpl := Cache → List Char → Option (Option (List Char × Cache × List (List Char)))

/-- The `for (pos, ch) in text.char_indices()` loop of `EzContext::translate`
(lib.rs 273-290).  On each classification transition the source pushes
`&text[prev_pos..=pos]` — the inclusive byte range `[prev_pos, pos+1)` —
and then sets `prev_pos = pos`. -/
def segLoop (impl : RunImpl) (t : List Char) :
    List (Nat × Char) → SegSt → Option (Option SegSt)
  | [], st => some (some st)
  | (pos, ch) :: rest, st =>
    if is_japanese ch then
      if st.is_in_japanese then segLoop impl t rest st
      else
        match byteSlice st.prevPos (pos + 1) t with
        | none => some none
        | some run =>
          segLoop impl t rest
            { st with prevPos := pos, is_in_japanese := true, ret := st.ret ++ run }
    else
      if st.is_in_japanese then
        match byteSlice st.prevPos (pos + 1) t with
        | none => some none
        | some run =>
          match impl st.cache run with
          | none => none
          | some none => some none
          | some (some (v, c2, tr)) =>
            segLoop impl t rest
              { prevPos := pos, is_in_japanese := false, ret := st.ret ++ v,
                cache := c2, trace := st.trace ++ tr }
      else segLoop impl t rest st

/-- Tail of `EzContext::translate` (lib.rs 300-303): insert the whole-input
key, then return `self.cache.get(text).unwrap()`. -/
def finishTranslate (text ret : List Char) (c : Cache) (tr : List (List Char))
    (d : EzDict) : Option (Option (List Char × EzContext × List (List Char))) :=
  match lookupA (insertOv c text ret) text with
  | none => some none
  | some v => some (some (v, ⟨insertOv c text ret, d⟩, tr))

/-- `EzContext::translate` (lib.rs 256-304), generic in the per-run
translator so that the same orchestration can be run with `translate_impl`
or with the spec-modelled fallback variant. -/
def translateWith (impl : RunImpl) (fuel : Nat) (s : EzContext) (text : List Char) :
    Option (Option (List Char × EzContext × List (List Char))) :=
  match lookupA s.cache text with
  | some v => some (some (v, s, []))
  | none =>
    match applyAll fuel s.dict.before_dict text with
    | none => none
    | some none => some none
    | some (some t) =>
      match t with
      | [] => some none
      | c0 :: _ =>
        match segLoop impl t (charIndices t) ⟨0, is_japanese c0, [], s.cache, []⟩ with
        | none => none
        | some none => some none
        | some (some st) =>
          match byteDrop st.prevPos t with
          | none => some none
          | some rest =>
            if st.is_in_japanese then
              match impl st.cache rest with
              | none => none
              | some none => some none
              | some (some (v, c2, tr)) =>
                finishTranslate text (st.ret ++ v) c2 (st.trace ++ tr) s.dict
            else finishTranslate text (st.ret ++ rest) st.cache st.trace s.dict

/-- `EzContext::translate` with the source's `translate_impl` as the
per-run translator. -/
def translate (enc : List Char → Option (List Nat)) (eng : List Nat → List Nat)
    (dec : List Nat → List Char × Bool) (fuel : Nat) (s : EzContext)
    (text : List Char) : Option (Option (List Char × EzContext × List (List Char))) :=
  translateWith (translate_impl enc eng dec fuel s.dict.after_dict) fuel s text

/-- Pure core of `EzContext::from_path` (lib.rs 161-194) after the files
have been read: unconditionally seed the empty-string cache entry
(`cache.insert(String::new(), String::new())`, an overwriting insert) and
`dict.sort()`. -/
def EzContext.from_path (cache : Cache) (dict : EzDict) : EzContext :=
  ⟨insertOv cache [] [], dict.sortAll⟩

/-- `ez_add_before_dict` (lib.rs 364-379): push `EzDictItem::new(key, value)`
(which panics on an empty key — `none`), then `sort_before_dict`. -/
def ez_add_before_dict (s : EzContext) (key value : List Char) : Option EzContext :=
  (EzDictItem.new key value).map fun it =>
    { s with
      dict := EzDict.sort_before_dict
        { s.dict with before_dict := s.dict.before_dict ++ [it] } }

/-- `ez_add_after_dict` (lib.rs 381-397). -/
def ez_add_after_dict (s : EzContext) (key value : List Char) : Option EzContext :=
  (EzDictItem.new key value).map fun it =>
    { s with
      dict := EzDict.sort_after_dict
        { s.dict with after_dict := s.dict.after_dict ++ [it] } }

/-- The persisted shape of an `EzDict` (lib.rs 71-83 with the `dict_items`
(de)serializer, lib.rs 110-150): a `sort` flag and two key-to-value entry
sequences, each written as one document-level mapping. -/
structure SavedDict where
  sort : Bool
  before : List (List Char × List Char)
  after : List (List Char × List Char)
deriving DecidableEq

/-- `dict_items::serialize` (lib.rs 117-125): one map entry per rule, in
sequence order. -/
def dict_items_serialize (items : List EzDictItem) : List (List Char × List Char) :=
  items.map fun it => (it.key, it.value)

/-- `dict_items::deserialize` (lib.rs 127-149): rebuild the rule vector in
entry order via `EzDictItem::new`, which panics (`none`) on an empty key. -/
def dict_items_deserialize : List (List Char × List Char) → Option (List EzDictItem)
  | [] => some []
  | (k, v) :: rest =>
    match EzDictItem.new k v with
    | none => none
    | some it => (dict_items_deserialize rest).map (it :: ·)

/-- Map semantics of the persisted dictionary file, an external-collaborator
model (not `src/` code): the serialized entries form a YAML mapping, and the
YAML loader materializes a mapping as a map with unique keys — inserting a
duplicate key updates the value in place and keeps the first occurrence's
position (linked-hash-map insert semantics).  With pairwise-distinct keys
this is the identity. -/
def mapNormalize (entries : List (List Char × List Char)) : List (List Char × List Char) :=
  entries.foldl (fun acc kv => insertOv acc kv.1 kv.2) []

/-- Dictionary half of `EzContext::save_to` (lib.rs 203). -/
def EzDict.save (d : EzDict) : SavedDict :=
  ⟨d.sort, dict_items_serialize d.before_dict, dict_items_serialize d.after_dict⟩

/-- Loading the persisted dictionary back (lib.rs 177-183): each rule
collection is read back from its mapping. -/
def SavedDict.load (sd : SavedDict) : Option EzDict :=
  match dict_items_deserialize (mapNormalize sd.before) with
  | none => none
  | some b =>
    match dict_items_deserialize (mapNormalize sd.after) with
    | none => none
    | some a => some ⟨sd.sort, b, a⟩

/-- The persisted shape of a whole context: the msgpack cache file (a
binary map of a hash map — unique keys, pairs preserved; the model keeps
the list) plus the dictionary file. -/
structure SavedCtx where
  cache : Cache
  dict : SavedDict
deriving DecidableEq

/-- Pure core of `EzContext::save_to` (lib.rs 196-206). -/
def EzContext.save_to (s : EzContext) : SavedCtx := ⟨s.cache, s.dict.save⟩

/-- A fresh `EzContext::from_path` on previously saved storage
(lib.rs 161-194): load cache and dictionary, seed the empty entry, sort. -/
def loadCtx (sv : SavedCtx) : Option EzContext :=
  sv.dict.load.map fun d => EzContext.from_path sv.cache d

/-- `save_to` followed by a fresh `from_path` on the same storage. -/
def roundTrip (s : EzContext) : Option EzContext := loadCtx s.save_to

/-- Context states reachable through the public operations: construction
via `from_path`, successful `translate` calls (with arbitrary engine and
transcoder behavior), and the two rule-adding entry points.  `save_to`
does not mutate the context. -/
inductive Reachable : EzContext → Prop where
  | init : ∀ cache dict, Reachable (EzContext.from_path cache dict)
  | step_translate : ∀ enc eng dec fuel s text r s2 tr, Reachable s →
      translate enc eng dec fuel s text = some (some (r, s2, tr)) → Reachable s2
  | step_add_before : ∀ s k v s2, Reachable s →
      ez_add_before_dict s k v = some s2 → Reachable s2
  | step_add_after : ∀ s k v s2, Reachable s →
      ez_add_after_dict s k v = some s2 → Reachable s2

/-- Modelled from the spec: the engine-failure fallback of the translation
step, described in spec §4.5/§7 ("if the external engine call itself
signals failure, the run's original (pre-engine, post-before-dictionary)
text is substituted as the translation for that run — translation failure
degrades to pass-through, it is never fatal to the whole call").  The
`src/` revision of `translate_impl` (lib.rs 233-235) gives the engine call
no failure branch; the fallback belongs to the repository's other revision,
which is not under `src/`.  `engF` returns `none` when the engine signals
failure; on failure the run text is passed through untouched by engine
output and after-dictionary processing. -/
def translate_impl_fallback (enc : List Char → Option (List Nat))
    (engF : List Nat → Option (List Nat)) (dec : List Nat → List Char × Bool)
    (fuel : Nat) (after_dict : List EzDictItem) (cache : Cache) (text : List Char) :
    Option (Option (List Char × Cache × List (List Char))) :=
  match lookupA cache text with
  | some v => some (some (v, cache, []))
  | none =>
    match enc text with
    | none => some none
    | some bytes =>
      match engF bytes with
      | none => some (some (text, cache, [text]))
      | some translated =>
        let decoded := (dec translated).1
        match applyAll fuel after_dict decoded with
        | none => none
        | some none => some none
        | some (some ret) => some (some (ret, insertNew cache text ret, [text]))

/-- Codepoints-as-bytes encoder: with the identity engine the composite
encode-engine-decode is the identity on run text, the setting of claim C1. -/
def enc0 (l : List Char) : Option (List Nat) := some (l.map Char.toNat)

/-- The identity engine on bytes. -/
def eng0 (bs : List Nat) : List Nat := bs

/-- Codepoints-as-bytes decoder; never reports a malformed input. -/
def dec0 (bs : List Nat) : List Char × Bool := (bs.map Char.ofNat, false)

/-- An engine that appends the byte 0xFF — a byte that can never occur in
well-formed EUC-KR output — to its reply. -/
def eng1 (bs : List Nat) : List Nat := bs ++ [255]

/-- EUC-KR-like strict decoder shape: decodes the ASCII prefix and reports
a malformed input as soon as a non-ASCII byte (such as 0xFF) appears. -/
def dec1 (bs : List Nat) : List Char × Bool :=
  ((bs.takeWhile (· < 128)).map Char.ofNat, bs.any (128 ≤ ·))

/-- An engine whose calls always signal failure. -/
def engFail (_ : List Nat) : Option (List Nat) := none

/-- The empty dictionary pair. -/
def d0 : EzDict := ⟨false, [], []⟩

/-- A freshly constructed context with empty persisted state: only the
seeded empty-string cache entry. -/
def ctx0 : EzContext := ⟨[([], [])], d0⟩

/-- The context state left behind by `translate ctx0 "あa"` (identity
engine): the run key and the whole-input key coincide, the final insert
overwrote the run entry. -/
def ctx1 : EzContext := ⟨[([], []), (['あ', 'a'], ['あ', 'a', 'a'])], d0⟩

/-- Cache extension: every binding of `c` is still observable in `c2`. -/
def CacheLe (c c2 : Cache) : Prop :=
  ∀ k v, lookupA c k = some v → lookupA c2 k = some v

/-- Contract of one segmentation-loop segment on the shared cache: the
cache only grows, and the engine-invocation trace `tr` lists pairwise
distinct keys, each absent from the cache before and present after. -/
def SegOk (c c2 : Cache) (tr : List (List Char)) : Prop :=
  CacheLe c c2 ∧ tr.Nodup ∧ ∀ x ∈ tr, lookupA c x = none ∧ lookupA c2 x ≠ none

/-- The rule list is non-decreasing by pattern. -/
abbrev SortedByKey (l : List EzDictItem) : Prop :=
  l.Chain' fun a b => lexLe a.key b.key = true

/-! ### Cache lemmas -/

theorem lookupA_append (c : Cache) (e : List Char × List Char) (k v : List Char)
    (h : lookupA c k = some v) : lookupA (c ++ [e]) k = some v := by
  induction c with
  | nil => simp [lookupA] at h
  | cons hd tl ih =>
    obtain ⟨k0, v0⟩ := hd
    by_cases hk : k0 = k
    · simpa [lookupA, hk] using h
    · simp only [lookupA, hk, List.cons_append, if_false] at h ⊢
      exact ih h

theorem lookupA_insertNew_self (c : Cache) (k v : List Char) (h : lookupA c k = none) :
    lookupA (insertNew c k v) k = some v := by
  induction c with
  | nil => simp [insertNew, lookupA]
  | cons hd tl ih =>
    obtain ⟨k0, v0⟩ := hd
    by_cases hk : k0 = k
    · simp [lookupA, hk] at h
    · simp only [lookupA, insertNew, List.cons_append, hk, if_false] at h ⊢
      exact ih h

theorem lookupA_insertOv_self (c : Cache) (k v : List Char) :
    lookupA (insertOv c k v) k = some v := by
  induction c with
  | nil => simp [insertOv, lookupA]
  | cons hd tl ih =>
    obtain ⟨k0, v0⟩ := hd
    by_cases hk : k0 = k
    · simp [insertOv, lookupA, hk]
    · simpa [insertOv, lookupA, hk] using ih

theorem lookupA_insertOv_ne (c : Cache) (k v k2 : List Char) (h : k2 ≠ k) :
    lookupA (insertOv c k v) k2 = lookupA c k2 := by
  induction c with
  | nil =>
    have hne : ¬k = k2 := fun he => h he.symm
    simp [insertOv, lookupA, hne]
  | cons hd tl ih =>
    obtain ⟨k0, v0⟩ := hd
    by_cases hk : k0 = k
    · subst hk
      have hne : ¬k0 = k2 := fun he => h he.symm
      simp [insertOv, lookupA, hne]
    · by_cases h2 : k0 = k2 <;> simp [insertOv, lookupA, hk, h2, h, ih]

theorem insertOv_lookup_eq (c : Cache) (k v : List Char) (h : lookupA c k = some v) :
    insertOv c k v = c := by
  induction c with
  | nil => simp [lookupA] at h
  | cons hd tl ih =>
    obtain ⟨k0, v0⟩ := hd
    by_cases hk : k0 = k
    · subst hk
      rw [lookupA, if_pos rfl] at h
      injection h with hv
      simp [insertOv, hv]
    · simp only [lookupA, hk, if_false] at h
      simp [insertOv, hk, ih h]

theorem insertOv_absent (c : Cache) (k v : List Char) (h : lookupA c k = none) :
    insertOv c k v = c ++ [(k, v)] := by
  induction c with
  | nil => simp [insertOv]
  | cons hd tl ih =>
    obtain ⟨k0, v0⟩ := hd
    by_cases hk : k0 = k
    · simp [lookupA, hk] at h
    · simp only [lookupA, hk, if_false] at h
      simp [insertOv, hk, ih h]

theorem lookupA_none_of_not_mem (c : Cache) (k : List Char)
    (h : k ∉ c.map Prod.fst) : lookupA c k = none := by
  induction c with
  | nil => rfl
  | cons hd tl ih =>
    obtain ⟨k0, v0⟩ := hd
    simp only [List.map_cons, List.mem_cons, not_or] at h
    have hne : ¬k0 = k := fun he => h.1 he.symm
    simp [lookupA, hne, ih h.2]

/-! ### CacheLe and SegOk -/

theorem cacheLe_refl (c : Cache) : CacheLe c c := fun _ _ h => h

theorem cacheLe_trans {a b c : Cache} (h1 : CacheLe a b) (h2 : CacheLe b c) :
    CacheLe a c := fun k v h => h2 k v (h1 k v h)

theorem cacheLe_insertNew (c : Cache) (k v : List Char) :
    CacheLe c (insertNew c k v) := fun k2 v2 h => lookupA_append c (k, v) k2 v2 h

theorem segOk_nil (c : Cache) : SegOk c c [] :=
  ⟨cacheLe_refl c, List.nodup_nil, by simp⟩

theorem segOk_comp {a b c : Cache} {t1 t2 : List (List Char)}
    (h1 : SegOk a b t1) (h2 : SegOk b c t2) : SegOk a c (t1 ++ t2) := by
  obtain ⟨le1, nd1, m1⟩ := h1
  obtain ⟨le2, nd2, m2⟩ := h2
  refine ⟨cacheLe_trans le1 le2, ?_, ?_⟩
  · rw [List.nodup_append]
    refine ⟨nd1, nd2, fun x hx1 hx2 => ?_⟩
    obtain ⟨w, hw⟩ := Option.ne_none_iff_exists'.mp (m1 x hx1).2
    exact absurd ((m2 x hx2).1) (by simp [hw])
  · intro x hx
    rcases List.mem_append.mp hx with hx1 | hx2
    · refine ⟨(m1 x hx1).1, ?_⟩
      obtain ⟨w, hw⟩ := Option.ne_none_iff_exists'.mp (m1 x hx1).2
      simp [le2 x w hw]
    · refine ⟨?_, (m2 x hx2).2⟩
      cases ha : lookupA a x with
      | none => rfl
      | some w => exact absurd ((m2 x hx2).1) (by simp [le1 x w ha])

/-! ### Behaviour of `translate_impl` and the segmentation loop -/

theorem translate_impl_spec {enc : List Char → Option (List Nat)} {eng : List Nat → List Nat}
    {dec : List Nat → List Char × Bool} {fuel : Nat} {after : List EzDictItem}
    {c : Cache} {text v : List Char} {c2 : Cache} {tr : List (List Char)}
    (h : translate_impl enc eng dec fuel after c text = some (some (v, c2, tr))) :
    SegOk c c2 tr ∧ lookupA c2 text = some v := by
  cases hl : lookupA c text with
  | some w =>
    simp only [translate_impl, hl, Option.some.injEq, Prod.mk.injEq] at h
    obtain ⟨hv, hc, ht⟩ := h
    subst hv; subst hc; subst ht
    exact ⟨segOk_nil c, hl⟩
  | none =>
    cases he : enc text with
    | none => simp [translate_impl, hl, he] at h
    | some bytes =>
      cases ha : applyAll fuel after ((dec (eng bytes)).1) with
      | none => simp [translate_impl, hl, he, ha] at h
      | some o =>
        cases o with
        | none => simp [translate_impl, hl, he, ha] at h
        | some ret =>
          simp only [translate_impl, hl, he, ha, Option.some.injEq, Prod.mk.injEq] at h
          obtain ⟨hv, hc, ht⟩ := h
          subst hv; subst hc; subst ht
          refine ⟨⟨cacheLe_insertNew c text ret, List.nodup_singleton _, ?_⟩,
            lookupA_insertNew_self c text ret hl⟩
          intro x hx
          rw [List.mem_singleton] at hx
          subst hx
          exact ⟨hl, by simp [lookupA_insertNew_self _ _ ret hl]⟩

theorem segLoop_spec {impl : RunImpl}
    (himpl : ∀ c k v c2 tr, impl c k = some (some (v, c2, tr)) → SegOk c c2 tr)
    {t : List Char} :
    ∀ idx st st2, segLoop impl t idx st = some (some st2) →
      ∃ tr2, st2.trace = st.trace ++ tr2 ∧ SegOk st.cache st2.cache tr2 := by
  intro idx
  induction idx with
  | nil =>
    intro st st2 h
    simp only [segLoop, Option.some.injEq] at h
    subst h
    exact ⟨[], by simp, segOk_nil st.cache⟩
  | cons pc rest ih =>
    intro st st2 h
    obtain ⟨pos, ch⟩ := pc
    by_cases hj : is_japanese ch
    · by_cases hin : st.is_in_japanese
      · rw [segLoop, if_pos hj, if_pos hin] at h
        exact ih st st2 h
      · rw [segLoop, if_pos hj, if_neg hin] at h
        cases hs : byteSlice st.prevPos (pos + 1) t with
        | none => simp [hs] at h
        | some run =>
          simp only [hs] at h
          obtain ⟨tr2, htr, hok⟩ := ih _ st2 h
          exact ⟨tr2, htr, hok⟩
    · by_cases hin : st.is_in_japanese
      · rw [segLoop, if_neg hj, if_pos hin] at h
        cases hs : byteSlice st.prevPos (pos + 1) t with
        | none => simp [hs] at h
        | some run =>
          simp only [hs] at h
          cases hi : impl st.cache run with
          | none => simp [hi] at h
          | some o =>
            cases o with
            | none => simp [hi] at h
            | some vct =>
              obtain ⟨v, c2, tr⟩ := vct
              simp only [hi] at h
              obtain ⟨tr3, htr, hok⟩ := ih _ st2 h
              simp only at htr
              refine ⟨tr ++ tr3, ?_, segOk_comp (himpl _ _ _ _ _ hi) hok⟩
              rw [htr, List.append_assoc]
      · rw [segLoop, if_neg hj, if_neg hin] at h
        exact ih st st2 h

theorem finishTranslate_spec {text ret : List Char} {c : Cache} {tr : List (List Char)}
    {d : EzDict} {r : List Char} {s2 : EzContext} {tr2 : List (List Char)}
    (h : finishTranslate text ret c tr d = some (some (r, s2, tr2))) :
    r = ret ∧ s2 = ⟨insertOv c text ret, d⟩ ∧ tr2 = tr := by
  rw [finishTranslate] at h
  simp only [lookupA_insertOv_self, Option.some.injEq, Prod.mk.injEq] at h
  obtain ⟨hr, hs2, htr⟩ := h
  exact ⟨hr.symm, hs2.symm, htr.symm⟩

theorem translate_spec {enc : List Char → Option (List Nat)} {eng : List Nat → List Nat}
    {dec : List Nat → List Char × Bool} {fuel : Nat} {s : EzContext} {text r : List Char}
    {s2 : EzContext} {tr : List (List Char)}
    (h : translate enc eng dec fuel s text = some (some (r, s2, tr))) :
    lookupA s2.cache text = some r ∧ s2.dict = s.dict ∧ tr.Nodup ∧
      (∀ x ∈ tr, lookupA s.cache x = none) ∧
      (∀ k v, k ≠ text → lookupA s.cache k = some v → lookupA s2.cache k = some v) := by
  unfold translate translateWith at h
  cases hl : lookupA s.cache text with
  | some w =>
    simp only [hl, Option.some.injEq, Prod.mk.injEq] at h
    obtain ⟨hr, hs2, htr⟩ := h
    subst hr; subst hs2; subst htr
    exact ⟨hl, rfl, List.nodup_nil, by simp, fun k v _ hv => hv⟩
  | none =>
    simp only [hl] at h
    cases hb : applyAll fuel s.dict.before_dict text with
    | none => simp [hb] at h
    | some o =>
      cases o with
      | none => simp [hb] at h
      | some t =>
        simp only [hb] at h
        cases t with
        | nil => simp at h
        | cons c0 t0 =>
          cases hseg : segLoop (translate_impl enc eng dec fuel s.dict.after_dict) (c0 :: t0)
              (charIndices (c0 :: t0)) ⟨0, is_japanese c0, [], s.cache, []⟩ with
          | none => simp [hseg] at h
          | some o2 =>
            cases o2 with
            | none => simp [hseg] at h
            | some st =>
              simp only [hseg] at h
              obtain ⟨tr2, htr2, hok2⟩ :=
                segLoop_spec (fun c k v c2 tr3 hi => (translate_impl_spec hi).1) _ _ _ hseg
              simp only at htr2
              rw [List.nil_append] at htr2
              cases hd : byteDrop st.prevPos (c0 :: t0) with
              | none => simp [hd] at h
              | some rest =>
                simp only [hd] at h
                by_cases hin : st.is_in_japanese
                · rw [if_pos hin] at h
                  cases hi : translate_impl enc eng dec fuel s.dict.after_dict st.cache rest with
                  | none => simp [hi] at h
                  | some o3 =>
                    cases o3 with
                    | none => simp [hi] at h
                    | some vct =>
                      obtain ⟨v2, c2, tr3⟩ := vct
                      simp only [hi] at h
                      obtain ⟨hok3, _⟩ := translate_impl_spec hi
                      obtain ⟨hr, hs2, htr⟩ := finishTranslate_spec h
                      subst hr; subst hs2; subst htr
                      have hok : SegOk s.cache c2 (tr2 ++ tr3) := segOk_comp hok2 hok3
                      refine ⟨lookupA_insertOv_self _ _ _, rfl, ?_, ?_, ?_⟩
                      · rw [htr2]; exact hok.2.1
                      · intro x hx
                        rw [htr2] at hx
                        exact (hok.2.2 x hx).1
                      · intro k v hk hv
                        rw [lookupA_insertOv_ne _ _ _ _ hk]
                        exact hok.1 k v hv
                · rw [if_neg hin] at h
                  obtain ⟨hr, hs2, htr⟩ := finishTranslate_spec h
                  subst hr; subst hs2; subst htr
                  refine ⟨lookupA_insertOv_self _ _ _, rfl, ?_, ?_, ?_⟩
                  · rw [htr2]; exact hok2.2.1
                  · intro x hx
                    rw [htr2] at hx
                    exact (hok2.2.2 x hx).1
                  · intro k v hk hv
                    rw [lookupA_insertOv_ne _ _ _ _ hk]
                    exact hok2.1 k v hv

/-! ### The standing empty-string cache entry -/

theorem translate_preserves_nil {enc : List Char → Option (List Nat)}
    {eng : List Nat → List Nat} {dec : List Nat → List Char × Bool} {fuel : Nat}
    {s : EzContext} {text r : List Char} {s2 : EzContext} {tr : List (List Char)}
    (h : translate enc eng dec fuel s text = some (some (r, s2, tr)))
    (hn : lookupA s.cache [] = some []) : lookupA s2.cache [] = some [] := by
  by_cases ht : text = []
  · subst ht
    have hh : translate enc eng dec fuel s [] = some (some ([], s, [])) := by
      unfold translate translateWith
      rw [hn]
    rw [hh] at h
    simp only [Option.some.injEq, Prod.mk.injEq] at h
    rw [← h.2.1]
    exact hn
  · exact (translate_spec h).2.2.2.2 [] [] (fun he => ht he.symm) hn

theorem ez_add_before_dict_cache {s : EzContext} {k v : List Char} {s2 : EzContext}
    (h : ez_add_before_dict s k v = some s2) : s2.cache = s.cache := by
  unfold ez_add_before_dict at h
  cases hn : EzDictItem.new k v with
  | none => simp [hn] at h
  | some it =>
    simp only [hn] at h
    injection h with h2
    rw [← h2]

theorem ez_add_after_dict_cache {s : EzContext} {k v : List Char} {s2 : EzContext}
    (h : ez_add_after_dict s k v = some s2) : s2.cache = s.cache := by
  unfold ez_add_after_dict at h
  cases hn : EzDictItem.new k v with
  | none => simp [hn] at h
  | some it =>
    simp only [hn] at h
    injection h with h2
    rw [← h2]

/-- In every reachable context state the cache maps the empty string to the
empty string: seeded at construction, never displaced afterwards. -/
theorem reachable_nil_entry {s : EzContext} (h : Reachable s) :
    lookupA s.cache [] = some [] := by
  induction h with
  | init cache dict => exact lookupA_insertOv_self cache [] []
  | step_translate enc eng dec fuel s text r s2 tr _ hstep ih =>
    exact translate_preserves_nil hstep ih
  | step_add_before s k v s2 _ hstep ih => rw [ez_add_before_dict_cache hstep]; exact ih
  | step_add_after s k v s2 _ hstep ih => rw [ez_add_after_dict_cache hstep]; exact ih

/-! ### The relative-offset scan of `EzDictItem::apply` on `"aba"` -/

theorem utf8Size_a : Char.utf8Size 'a' = 1 := rfl

theorem byteSplit_zero (l : List Char) : byteSplit 0 l = some ([], l) := by
  simp [byteSplit]

theorem byteSplit_one_a (l : List Char) : byteSplit 1 ('a' :: l) = some (['a'], l) := by
  simp [byteSplit, utf8Size_a, byteSplit_zero]

theorem byteSplit_two_aa (l : List Char) :
    byteSplit 2 ('a' :: 'a' :: l) = some (['a', 'a'], l) := by
  simp [byteSplit, utf8Size_a, byteSplit_one_a]

theorem byteDrop_two_aa (l : List Char) : byteDrop 2 ('a' :: 'a' :: l) = some l := by
  simp [byteDrop, byteSplit_two_aa]

theorem findStr_cons_a (l : List Char) : findStr ('a' :: l) ['a'] = some 0 := by
  simp [findStr, strPrefix]

theorem replaceRange_head_a (l v : List Char) :
    replaceRange ('a' :: l) 0 1 v = some (v ++ l) := by
  simp [replaceRange, byteSplit_zero, byteSplit_one_a]

/-- On `"aba"` with the rule `"a" → "aa"`, the loop reaches states
`"a"^(n+4) ++ "ba"` with scan position 2 and from there grows the string by
one `'a'` per iteration forever: the relative offset 0 of the next match in
the suffix is applied at absolute offset 0. -/
theorem applyLoop_aa_diverges : ∀ fuel n,
    applyLoop ['a'] ['a', 'a'] fuel
      ('a' :: 'a' :: 'a' :: 'a' :: (List.replicate n 'a' ++ ['b', 'a'])) 2 = none := by
  intro fuel
  induction fuel with
  | zero => intro n; rfl
  | succ f ih =>
    intro n
    have h1 : byteLen ['a'] = 1 := rfl
    have h2 : byteLen ['a', 'a'] = 2 := rfl
    simp only [applyLoop, byteDrop_two_aa, findStr_cons_a, h1, h2, Nat.zero_add,
      replaceRange_head_a, List.cons_append, List.nil_append]
    have := ih (n + 1)
    rw [List.replicate_succ] at this
    simpa using this

/-! ### Sorting lemmas -/

theorem insertSorted_le (it x : EzDictItem) (xs : List EzDictItem)
    (h : lexLe it.key x.key = true) : insertSorted it (x :: xs) = it :: x :: xs := by
  simp [insertSorted, h]

theorem sortByKey_sorted_id : ∀ l : List EzDictItem, SortedByKey l → sortByKey l = l := by
  intro l
  induction l with
  | nil => intro _; rfl
  | cons a l ih =>
    intro h
    have ht : SortedByKey l := h.tail
    have hs : sortByKey (a :: l) = insertSorted a (sortByKey l) := rfl
    rw [hs, ih ht]
    cases l with
    | nil => rfl
    | cons b bs =>
      have hab : lexLe a.key b.key = true := (List.chain'_cons.mp h).1
      exact insertSorted_le a b bs hab

/-! ### Persistence lemmas -/

theorem foldl_insertOv_nodup :
    ∀ (l acc : List (List Char × List Char)),
      ((acc ++ l).map Prod.fst).Nodup →
      l.foldl (fun a kv => insertOv a kv.1 kv.2) acc = acc ++ l := by
  intro l
  induction l with
  | nil => intro acc _; simp
  | cons kv rest ih =>
    intro acc hnd
    have hmem : kv.1 ∉ acc.map Prod.fst := by
      rw [List.map_append, List.nodup_append] at hnd
      intro hin
      exact hnd.2.2 hin (by simp)
    have hk : lookupA acc kv.1 = none := lookupA_none_of_not_mem acc kv.1 hmem
    rw [List.foldl_cons, insertOv_absent acc kv.1 kv.2 hk]
    have hnd2 : (((acc ++ [kv]) ++ rest).map Prod.fst).Nodup := by
      rw [List.append_assoc]
      simpa using hnd
    have := ih (acc ++ [kv]) hnd2
    rw [this, List.append_assoc]
    rfl

theorem mapNormalize_nodup (l : List (List Char × List Char))
    (h : (l.map Prod.fst).Nodup) : mapNormalize l = l := by
  have := foldl_insertOv_nodup l [] (by simpa using h)
  simpa [mapNormalize] using this

theorem dict_items_roundtrip : ∀ items : List EzDictItem,
    (∀ it ∈ items, it.key ≠ []) →
    dict_items_deserialize (dict_items_serialize items) = some items := by
  intro items
  induction items with
  | nil => intro _; rfl
  | cons it rest ih =>
    intro h
    have hk : it.key ≠ [] := h it (by simp)
    have hr := ih fun x hx => h x (by simp [hx])
    have hnew : EzDictItem.new it.key it.value = some it := by simp [EzDictItem.new, hk]
    simp only [dict_items_serialize, List.map_cons] at hr ⊢
    simp [dict_items_deserialize, hnew, hr]

theorem sortAll_sorted_id (d : EzDict)
    (hb : d.sort = true → SortedByKey d.before_dict)
    (ha : d.sort = true → SortedByKey d.after_dict) : d.sortAll = d := by
  obtain ⟨so, bd, ad⟩ := d
  cases so with
  | false => rfl
  | true =>
    have hb2 := sortByKey_sorted_id bd (hb rfl)
    have ha2 := sortByKey_sorted_id ad (ha rfl)
    simp [EzDict.sortAll, EzDict.sort_after_dict, EzDict.sort_before_dict, hb2, ha2]

/-! ### The repository's own unit tests, replayed on the model -/

theorem model_matches_dict_item_test :
    EzDictItem.apply ⟨['1', '2', '3'], ['a', 'b', 'c']⟩ 10 ['1', '2', '3', 'd', 'e', 'f'] =
      some (some ['a', 'b', 'c', 'd', 'e', 'f']) := by decide

theorem model_matches_dict_item_empty_value_test :
    EzDictItem.apply ⟨['1', '2', '3'], []⟩ 10 ['1', '2', '3', 'd', 'e', 'f'] =
      some (some ['d', 'e', 'f']) := by decide

theorem model_matches_dict_item_eq_kv_test :
    EzDictItem.apply ⟨['1', '2', '3'], ['1', '2', '3']⟩ 10 ['1', '2', '3', 'd', 'e', 'f'] =
      some (some ['1', '2', '3', 'd', 'e', 'f']) := by decide

theorem model_matches_dict_item_empty_key_test :
    EzDictItem.new [] ['1', '2', '3'] = none := rfl

/-! ### Claims -/

/-- Claim C1: refuted on the code — with empty dictionaries and the
composite encode-engine-decode equal to the identity on the run, the
cache-miss path of `translate` does not emit a lossless partition.  On
`"あa"` the transition out of the translatable run pushes
`text[prev_pos..=pos]`, which *includes* the boundary character `'a'`, and
then restarts the next run at `prev_pos = pos`, so `'a'` is emitted twice
and the result is `"あaa"`.  On `"aあ"` the transition into the
translatable run slices `text[0..=1]`, byte offset 2 of the three-byte
`'あ'`, and the code panics.  (The transition count does equal the number
of emitted runs minus one; losslessness is what fails.) -/
theorem C1_segmentation_not_lossless :
    translate enc0 eng0 dec0 1 ctx0 ['あ', 'a'] =
      some (some (['あ', 'a', 'a'], ctx1, [['あ', 'a']])) ∧
    ['あ', 'a', 'a'] ≠ ['あ', 'a'] ∧
    translate enc0 eng0 dec0 1 ctx0 ['a', 'あ'] = some none := by decide

/-- Claim C2: refuted on the code — `EzDictItem::apply` resumes its scan
with a match offset that is *relative* to the suffix `&text[prev_pos..]`
but applies it as an *absolute* index into the mutated string, re-reading
and corrupting text before the scan point.  For the rule `"ab" → "c"` on
`"XabYab"` the correct result is `"XcYc"`; the code produces `"cb"`. -/
theorem C2_apply_relative_offset_misused :
    EzDictItem.apply ⟨['a', 'b'], ['c']⟩ 10 ['X', 'a', 'b', 'Y', 'a', 'b'] =
      some (some ['c', 'b']) ∧
    EzDictItem.apply ⟨['a', 'b'], ['c']⟩ 10 ['X', 'a', 'b', 'Y', 'a', 'b'] ≠
      some (some ['X', 'c', 'Y', 'c']) := by decide

/-- Claim C3: refuted on the code — for the rule `"a" → "aa"` (pattern a
substring of its own replacement) on `"aba"`, `apply` never terminates:
after four iterations the loop reaches the state family
`"a"^(n+4) ++ "ba"` with scan position 2, from which each iteration applies
the relative match offset 0 absolutely, re-replacing the first `'a'` and
growing the string by one character forever.  No fuel bound suffices. -/
theorem C3_apply_diverges :
    ∀ fuel, EzDictItem.apply ⟨['a'], ['a', 'a']⟩ fuel ['a', 'b', 'a'] = none := by
  intro fuel
  obtain _ | _ | _ | _ | f := fuel
  · rfl
  · rfl
  · rfl
  · rfl
  · exact applyLoop_aa_diverges f 1

/-- Claim C4: whenever a `translate` call returns normally, the engine was
invoked at most once per distinct translatable-run key — the invocation
trace is duplicate-free and every traced key was absent from the cache when
the call began — and an immediately repeated call with the same input
short-circuits on the whole-input key the first call inserted: it returns
the byte-identical result, performs no engine invocation at all, and leaves
the state unchanged. -/
theorem C4_translate_memoized {enc : List Char → Option (List Nat)}
    {eng : List Nat → List Nat} {dec : List Nat → List Char × Bool} {fuel : Nat}
    {s : EzContext} {text r : List Char} {s2 : EzContext} {tr : List (List Char)}
    (h : translate enc eng dec fuel s text = some (some (r, s2, tr))) :
    translate enc eng dec fuel s2 text = some (some (r, s2, [])) ∧
    tr.Nodup ∧ ∀ x ∈ tr, lookupA s.cache x = none := by
  obtain ⟨h1, _, h3, h4, _⟩ := translate_spec h
  refine ⟨?_, h3, h4⟩
  unfold translate translateWith
  rw [h1]

theorem C4_translate_memoized_witness :
    translate enc0 eng0 dec0 1 ctx0 ['あ', 'a'] =
      some (some (['あ', 'a', 'a'], ctx1, [['あ', 'a']])) ∧
    (translate enc0 eng0 dec0 1 ctx1 ['あ', 'a'] =
        some (some (['あ', 'a', 'a'], ctx1, [])) ∧
      [['あ', 'a']].Nodup ∧ ∀ x ∈ [['あ', 'a']], lookupA ctx0.cache x = none) :=
  ⟨by decide, C4_translate_memoized (by decide)⟩

/-- Claim C5 counterexample: adding a rule with an empty pattern does not
return normally at all — `EzDictItem::new`'s `assert!(!key.is_empty())`
panics (`none` in the model; the repository's own
`dict_item_empty_key_test` is `#[should_panic]`), and a panic unwinding out
of the `extern "C"` entry point takes down the process; no recoverable
`InvalidRule` error value exists anywhere in the source. -/
theorem C5_add_empty_key_panics_cex : ez_add_before_dict ctx0 [] ['x'] = none := rfl

/-- Claim C5 amended: adding a dictionary rule with an empty pattern fails
by an assertion panic in rule construction — before anything is pushed, so
the rule set is not mutated — rather than by a recoverable `InvalidRule`
error; the failure is precisely of the process-terminating kind. -/
theorem C5_add_empty_key_panics (s : EzContext) (v : List Char) :
    EzDictItem.new [] v = none ∧ ez_add_before_dict s [] v = none ∧
      ez_add_after_dict s [] v = none := by
  refine ⟨rfl, ?_, ?_⟩ <;>
    simp [ez_add_before_dict, ez_add_after_dict, EzDictItem.new]

/-- Claim C6 counterexample: with an engine whose reply ends in the byte
0xFF — a byte that can never occur in well-formed EUC-KR output — the
decoder reports the reply malformed, yet `translate_impl` returns normal
success carrying the silently truncated decoded prefix: the decode
direction signals no error. -/
theorem C6_decode_error_ignored_cex :
    (dec1 (eng1 [107])).2 = true ∧
    translate_impl enc0 eng1 dec1 1 [] [] ['k'] =
      some (some (['k'], [(['k'], ['k'])], [['k']])) := ⟨rfl, rfl⟩

/-- Claim C6 amended: the encode direction is as claimed — an unmappable
character is a hard failure (the `assert_eq!` panics) and never a silent
substitution; but the decode direction ignores the decoder's error result
(`_decoder_ret`): `translate_impl` behaves identically whether or not the
decoder flags the reply malformed, silently keeping only the decoded
prefix. -/
theorem C6_encode_hard_decode_silent (enc : List Char → Option (List Nat))
    (eng : List Nat → List Nat) (dec : List Nat → List Char × Bool) (fuel : Nat)
    (after : List EzDictItem) (c : Cache) (text : List Char)
    (h : lookupA c text = none) :
    (enc text = none → translate_impl enc eng dec fuel after c text = some none) ∧
    translate_impl enc eng dec fuel after c text =
      translate_impl enc eng (fun bs => ((dec bs).1, false)) fuel after c text := by
  constructor
  · intro he
    simp [translate_impl, h, he]
  · cases he : enc text with
    | none => simp [translate_impl, h, he]
    | some bytes => simp [translate_impl, h, he]

theorem C6_encode_hard_decode_silent_witness :
    lookupA [] ['q'] = none ∧
    (((fun _ : List Char => (none : Option (List Nat))) ['q'] = none →
        translate_impl (fun _ => none) eng1 dec1 1 [] [] ['q'] = some none) ∧
      translate_impl (fun _ => none) eng1 dec1 1 [] [] ['q'] =
        translate_impl (fun _ => none) eng1 (fun bs => ((dec1 bs).1, false)) 1 [] [] ['q']) :=
  ⟨rfl, C6_encode_hard_decode_silent (fun _ => none) eng1 dec1 1 [] [] ['q'] rfl⟩

/-- Claim C7 (spec-modelled): in the fallback translation step described by
the spec — the `src/` revision gives the engine call no failure branch —
an engine failure on a cache-miss run leaves the call succeeding normally,
and the text returned for that run is the run's own (post-before-dictionary)
text, untouched by engine output or after-dictionary processing. -/
theorem C7_engine_failure_pass_through (enc : List Char → Option (List Nat))
    (engF : List Nat → Option (List Nat)) (dec : List Nat → List Char × Bool)
    (fuel : Nat) (after : List EzDictItem) (c : Cache) (text : List Char)
    (bytes : List Nat) (hc : lookupA c text = none) (he : enc text = some bytes)
    (hf : engF bytes = none) :
    translate_impl_fallback enc engF dec fuel after c text =
      some (some (text, c, [text])) := by
  simp [translate_impl_fallback, hc, he, hf]

theorem C7_engine_failure_pass_through_witness :
    lookupA [] ['k'] = none ∧ enc0 ['k'] = some [107] ∧ engFail [107] = none ∧
    translate_impl_fallback enc0 engFail dec1 1 [] [] ['k'] =
      some (some (['k'], [], [['k']])) :=
  ⟨rfl, rfl, rfl,
    C7_engine_failure_pass_through enc0 engFail dec1 1 [] [] ['k'] [107] rfl rfl rfl⟩

/-- Claim C8 counterexample: two rules with the same pattern do not survive
a save/load round trip — the dictionary file stores each rule collection as
a mapping keyed by pattern, so the loader returns one rule per pattern
(last replacement wins): `[("a","1"), ("a","2")]` comes back as
`[("a","2")]`. -/
theorem C8_roundtrip_duplicate_cex :
    roundTrip ⟨[([], [])], ⟨false, [⟨['a'], ['1']⟩, ⟨['a'], ['2']⟩], []⟩⟩ =
      some ⟨[([], [])], ⟨false, [⟨['a'], ['2']⟩], []⟩⟩ ∧
    roundTrip ⟨[([], [])], ⟨false, [⟨['a'], ['1']⟩, ⟨['a'], ['2']⟩], []⟩⟩ ≠
      some ⟨[([], [])], ⟨false, [⟨['a'], ['1']⟩, ⟨['a'], ['2']⟩], []⟩⟩ := by decide

/-- Claim C8 amended: `save_to` followed by a fresh `from_path` on the same
storage reproduces the context exactly — same rules in the same order
(when the sort flag is set the collections are already sorted, so the
load-time re-sort is the identity) and the same cache pairs (the load-time
seeding of the empty entry rewrites the entry the cache already holds) —
provided the patterns within each rule collection are pairwise distinct and
non-empty; duplicate patterns are collapsed by the map-shaped dictionary
file and are not preserved. -/
theorem C8_roundtrip_id (s : EzContext)
    (hbk : ∀ it ∈ s.dict.before_dict, it.key ≠ [])
    (hak : ∀ it ∈ s.dict.after_dict, it.key ≠ [])
    (hbn : (s.dict.before_dict.map EzDictItem.key).Nodup)
    (han : (s.dict.after_dict.map EzDictItem.key).Nodup)
    (hbs : s.dict.sort = true → SortedByKey s.dict.before_dict)
    (has : s.dict.sort = true → SortedByKey s.dict.after_dict)
    (hce : lookupA s.cache [] = some []) :
    roundTrip s = some s := by
  have hmb : mapNormalize (dict_items_serialize s.dict.before_dict) =
      dict_items_serialize s.dict.before_dict := by
    apply mapNormalize_nodup
    simpa [dict_items_serialize, List.map_map, Function.comp] using hbn
  have hma : mapNormalize (dict_items_serialize s.dict.after_dict) =
      dict_items_serialize s.dict.after_dict := by
    apply mapNormalize_nodup
    simpa [dict_items_serialize, List.map_map, Function.comp] using han
  have hload : SavedDict.load (EzDict.save s.dict) = some s.dict := by
    unfold SavedDict.load EzDict.save
    simp [hmb, hma, dict_items_roundtrip _ hbk, dict_items_roundtrip _ hak]
  unfold roundTrip loadCtx EzContext.save_to
  simp only [hload, Option.map_some']
  unfold EzContext.from_path
  rw [insertOv_lookup_eq s.cache [] [] hce, sortAll_sorted_id s.dict hbs has]

theorem C8_roundtrip_id_witness :
    roundTrip ⟨[([], [])], ⟨true, [⟨['a'], ['1']⟩, ⟨['b'], ['2']⟩], [⟨['c'], ['3']⟩]⟩⟩ =
      some ⟨[([], [])], ⟨true, [⟨['a'], ['1']⟩, ⟨['b'], ['2']⟩], [⟨['c'], ['3']⟩]⟩⟩ :=
  C8_roundtrip_id _ (by decide) (by decide) (by decide) (by decide)
    (fun _ => List.chain'_cons.mpr ⟨rfl, List.chain'_singleton _⟩)
    (fun _ => List.chain'_singleton _) (by decide)

/-- Claim C10: in every reachable context state, `translate` on the empty
string returns the empty string with no engine invocation, no segmentation,
and no state change: the empty-to-empty cache entry is seeded at
construction and never displaced, so the initial whole-input cache check
short-circuits before `text.chars().next().unwrap()` can be reached. -/
theorem C10_translate_empty {enc : List Char → Option (List Nat)}
    {eng : List Nat → List Nat} {dec : List Nat → List Char × Bool} {fuel : Nat}
    {s : EzContext} (hs : Reachable s) :
    translate enc eng dec fuel s [] = some (some ([], s, [])) := by
  have h := reachable_nil_entry hs
  unfold translate translateWith
  rw [h]

theorem C10_translate_empty_witness :
    translate enc0 eng0 dec0 0 (EzContext.from_path [] d0) [] =
      some (some ([], EzContext.from_path [] d0, [])) :=
  C10_translate_empty (Reachable.init [] d0)

end Ez
